import Mathlib

/-!
Verification of the dependency-list / SBOM generation logic of the
`DependencyListPlugin` (webpack plugin of the guacamole-client build).

The JavaScript source is shallowly embedded: each private static method of
the plugin becomes a Lean function over explicit data, and the build pass
(`apply`'s done-hook body) becomes a fold over the list of file
dependencies.  JavaScript objects used as ordered string-keyed maps are
embedded as association lists with JS assignment semantics (overwrite in
place, append when absent).  The shorthand-author regular expression is
embedded as an explicit backtracking matcher with the exact lazy/greedy
preference order of the JS engine.
-/

namespace GuacDeps

/-! ## License normalization (`DependencyListPlugin.#toSBOMLicenses`) -/

/-- The character class `[A-Za-z0-9+.]` of the SPDX-identifier test regex. -/
def isSpdxIdentChar (c : Char) : Bool :=
  c.isAlpha || c.isDigit || c = '+' || c = '.'

/-- A CycloneDX license entry: either `{license: {id: s}}` or `{expression: s}`. -/
inductive SBOMLicense where
  | id (s : String)
  | expr (s : String)
deriving DecidableEq, Repr

/-- Model of `/^[A-Za-z0-9+.]+/.exec(npmLicense)`: the (greedy) matched leading
run of identifier characters, or `none` when the run is empty. -/
def spdxIdentMatch (s : String) : Option (List Char) :=
  let m := s.data.takeWhile isSpdxIdentChar
  if m = [] then none else some m

/-- `DependencyListPlugin.#toSBOMLicenses`: a leading SPDX-identifier character
run classifies the whole string as a single id, otherwise it is kept as an
SPDX expression. -/
def toSBOMLicenses (npmLicense : String) : List SBOMLicense :=
  match spdxIdentMatch npmLicense with
  | some _ => [SBOMLicense.id npmLicense]
  | none => [SBOMLicense.expr npmLicense]

/-! ## The shorthand-author regular expression

`/^(.*?)\s*(?:<([^>]*)>)?\s*(?:\(([^)]*)\))?$/` from
`DependencyListPlugin.#toSBOMAuthors`, embedded as a backtracking matcher.
Choice points are explored in the JS engine's order: the lazy `(.*?)` tries
shorter captures first, each greedy `\s*` tries longer runs first, and each
optional group prefers matching over skipping. -/

/-- Characters the regex `.` does not match (JS line terminators). -/
def isLineTerm (c : Char) : Bool :=
  let n := c.toNat
  n == 10 || n == 13 || n == 0x2028 || n == 0x2029

/-- The JS regex `\s` character class. -/
def isJsSpace (c : Char) : Bool :=
  let n := c.toNat
  (9 ≤ n && n ≤ 13) || n == 32 || n == 0xa0 || n == 0x1680 ||
    (0x2000 ≤ n && n ≤ 0x200a) || n == 0x2028 || n == 0x2029 ||
    n == 0x202f || n == 0x205f || n == 0x3000 || n == 0xfeff

/-- First successful alternative, in order. -/
def firstSome {α : Type} : List (Option α) → Option α
  | [] => none
  | some a :: _ => some a
  | none :: rest => firstSome rest

/-- Match `<([^>]*)>` at the start of `r`: the capture and the remainder. -/
def matchAngle (r : List Char) : Option (List Char × List Char) :=
  match r with
  | '<' :: rest =>
    match rest.dropWhile (· ≠ '>') with
    | '>' :: rem => some (rest.takeWhile (· ≠ '>'), rem)
    | _ => none
  | _ => none

/-- Match `\(([^)]*)\)` at the start of `r`: the capture and the remainder. -/
def matchParen (r : List Char) : Option (List Char × List Char) :=
  match r with
  | '(' :: rest =>
    match rest.dropWhile (· ≠ ')') with
    | ')' :: rem => some (rest.takeWhile (· ≠ ')'), rem)
    | _ => none
  | _ => none

/-- Match `(?:\(([^)]*)\))?$` against all of `r` (group preferred over skip). -/
def matchUrlEnd (r : List Char) : Option (Option (List Char)) :=
  firstSome
    [ (matchParen r).bind (fun p => if p.2 = [] then some (some p.1) else none),
      if r = [] then some none else none ]

/-- Match `\s*(?:\(([^)]*)\))?$` against all of `r` (`\s*` greedy). -/
def matchWsUrlEnd (r : List Char) : Option (Option (List Char)) :=
  let m := (r.takeWhile isJsSpace).length
  firstSome ((List.range (m + 1)).reverse.map (fun k => matchUrlEnd (r.drop k)))

/-- Match `(?:<([^>]*)>)?\s*(?:\(([^)]*)\))?$` against all of `r`. -/
def matchEmailEnd (r : List Char) : Option (Option (List Char) × Option (List Char)) :=
  firstSome
    [ (matchAngle r).bind (fun p => (matchWsUrlEnd p.2).map (fun u => (some p.1, u))),
      (matchWsUrlEnd r).map (fun u => ((none : Option (List Char)), u)) ]

/-- Match `\s*(?:<([^>]*)>)?\s*(?:\(([^)]*)\))?$` against all of `r`. -/
def matchTail (r : List Char) : Option (Option (List Char) × Option (List Char)) :=
  let m := (r.takeWhile isJsSpace).length
  firstSome ((List.range (m + 1)).reverse.map (fun k => matchEmailEnd (r.drop k)))

/-- Model of `exec` for the whole author regex: `some (name, email?, url?)`
with the captures of the first (backtracking-ordered) parse, `none` when the
string does not match. -/
def execAuthorRegex (s : String) : Option (String × Option String × Option String) :=
  let l := s.data
  firstSome ((List.range (l.length + 1)).map (fun k =>
    if (l.take k).all (fun c => !isLineTerm c) then
      (matchTail (l.drop k)).map
        (fun p => (String.mk (l.take k), p.1.map String.mk, p.2.map String.mk))
    else none))

/-! ## Author normalization (`DependencyListPlugin.#toSBOMAuthors`) -/

/-- A CycloneDX author entry (the `email` key is absent when `none`). -/
structure SBOMAuthor where
  name : String
  email : Option String
deriving DecidableEq, Repr

/-- The npm `author` field: either a shorthand string or a structured object
with optional `name`/`email`/`url` keys. -/
inductive NpmAuthor where
  | str (s : String)
  | obj (name : Option String) (email : Option String) (url : Option String)
deriving DecidableEq, Repr

/-- JS truthiness of an optional string field (absent and `""` are falsy). -/
def truthy : Option String → Bool
  | none => false
  | some s => s ≠ ""

/-- `DependencyListPlugin.#toSBOMAuthors`.  A structured value with a truthy
`name` is used directly (the truthiness test `if (npmAuthor.email)` drops an
empty email; `url` is never read).  Otherwise the value is run through the
shorthand regex — for a structured value this is JS string conversion,
`"[object Object]"`, which the regex always matches, so the final
`author.name = npmAuthor` fallback is reached only for strings. -/
def toSBOMAuthors (npmAuthor : NpmAuthor) : List SBOMAuthor :=
  match npmAuthor with
  | .obj nm em _ =>
    if truthy nm then
      [{ name := nm.getD "", email := if truthy em then em else none }]
    else
      match execAuthorRegex "[object Object]" with
      | some (n, e, _) => [{ name := n, email := if truthy e then e else none }]
      | none => [{ name := "[object Object]", email := none }]
  | .str s =>
    match execAuthorRegex s with
    | some (n, e, _) => [{ name := n, email := if truthy e then e else none }]
    | none => [{ name := s, email := none }]

/-! ## Package descriptors and `DependencyListPlugin.#findPackage` -/

/-- An npm `package.json` descriptor (the fields the plugin reads). -/
structure NpmPackage where
  name : String
  version : String
  author : Option NpmAuthor
  description : Option String
  license : Option String
deriving DecidableEq, Repr

/-- `DependencyListPlugin.#findPackage`, over the sequence of descriptors the
`find-package-json` iterator yields for the ancestor directories of a file,
nearest first.  The loop advances while the current descriptor's `name` is
falsy and returns the iterator's value (`undefined`, i.e. `none`, when the
iterator is exhausted). -/
def findPackage : List NpmPackage → Option NpmPackage
  | [] => none
  | p :: rest => if p.name ≠ "" then some p else findPackage rest

/-! ## `encodeURIComponent` and the package URL (`DependencyListPlugin.#toSBOM`) -/

/-- Uppercase hexadecimal digit, as produced by `encodeURIComponent`. -/
def hexDigitChar (n : Nat) : Char :=
  if n < 10 then Char.ofNat (48 + n) else Char.ofNat (55 + n)

/-- UTF-8 bytes of a code point (percent-encoding operates on these). -/
def utf8Bytes (n : Nat) : List Nat :=
  if n < 0x80 then [n]
  else if n < 0x800 then [0xc0 + n / 64, 0x80 + n % 64]
  else if n < 0x10000 then [0xe0 + n / 4096, 0x80 + n / 64 % 64, 0x80 + n % 64]
  else [0xf0 + n / 262144, 0x80 + n / 4096 % 64, 0x80 + n / 64 % 64, 0x80 + n % 64]

/-- `%XY` escape of one byte. -/
def pctEncodeByte (b : Nat) : List Char :=
  ['%', hexDigitChar (b / 16), hexDigitChar (b % 16)]

/-- The characters `encodeURIComponent` leaves unescaped:
`A-Z a-z 0-9 - _ . ! ~ * ' ( )`. -/
def isUriUnreserved (c : Char) : Bool :=
  c.isAlpha || c.isDigit || c = '-' || c = '_' || c = '.' || c = '!' ||
    c = '~' || c = '*' || c = '\'' || c = '(' || c = ')'

/-- Encoding of one character: kept literally when unreserved, otherwise each
UTF-8 byte is percent-escaped. -/
def encodeChar (c : Char) : List Char :=
  if isUriUnreserved c then [c] else (utf8Bytes c.toNat).flatMap pctEncodeByte

/-- JS `encodeURIComponent`. -/
def encodeURIComponent (s : String) : String :=
  String.mk (s.data.flatMap encodeChar)

/-- JS `String.prototype.replace` with a plain-string pattern: only the first
occurrence is replaced. -/
def replaceFirstAux (pat repl : List Char) : List Char → List Char
  | [] => []
  | c :: cs =>
    if pat.isPrefixOf (c :: cs) then repl ++ (c :: cs).drop pat.length
    else c :: replaceFirstAux pat repl cs

/-- JS `s.replace(pat, repl)` for string `pat` (first occurrence only). -/
def replaceFirst (s pat repl : String) : String :=
  String.mk (replaceFirstAux pat.data repl.data s.data)

/-- The package URL computed in `DependencyListPlugin.#toSBOM`:
`'pkg:npm/' + encodeURIComponent(name).replace('%2F', '/') + '@' +
encodeURIComponent(version)`. -/
def purl (name version : String) : String :=
  "pkg:npm/" ++ replaceFirst (encodeURIComponent name) "%2F" "/"
    ++ "@" ++ encodeURIComponent version

/-! ## SBOM assembly (`DependencyListPlugin.#toSBOM`) -/

/-- A CycloneDX component (`bomRef` embeds the JSON key `bom-ref`; optional
keys are absent when `none`). -/
structure Component where
  type : String
  bomRef : String
  name : String
  version : String
  purl : String
  authors : Option (List SBOMAuthor)
  description : Option String
  licenses : Option (List SBOMLicense)
deriving DecidableEq, Repr

/-- A CycloneDX dependency entry. -/
structure Dependency where
  ref : String
deriving DecidableEq, Repr

/-- The SBOM document (`serialNumber` and `timestamp` are produced by `uuid`
and `Date` at run time and are taken here as inputs). -/
structure SBOM where
  bomFormat : String
  specVersion : String
  serialNumber : String
  version : Nat
  timestamp : String
  components : List Component
  dependencies : List Dependency
deriving DecidableEq, Repr

/-- JS truthiness of the `author` field: a structured object is always
truthy, a shorthand string only when non-empty. -/
def truthyAuthor : NpmAuthor → Bool
  | .str s => s ≠ ""
  | .obj _ _ _ => true

/-- The component built for one npm package inside the `forEach` of
`DependencyListPlugin.#toSBOM`, including the three truthiness-guarded
optional translations. -/
def mkComponent (p : NpmPackage) : Component :=
  { type := "library"
    bomRef := purl p.name p.version
    name := p.name
    version := p.version
    purl := purl p.name p.version
    authors :=
      match p.author with
      | some a => if truthyAuthor a then some (toSBOMAuthors a) else none
      | none => none
    description := if truthy p.description then p.description else none
    licenses :=
      match p.license with
      | some l => if l ≠ "" then some (toSBOMLicenses l) else none
      | none => none }

/-- The body of the `forEach` in `DependencyListPlugin.#toSBOM`: push the
component and the dependency referencing it by its purl. -/
def pushPackage (s : SBOM) (p : NpmPackage) : SBOM :=
  { s with
    components := s.components ++ [mkComponent p]
    dependencies := s.dependencies ++ [{ ref := purl p.name p.version }] }

/-- `DependencyListPlugin.#toSBOM`: the document skeleton, then one component
and one dependency pushed per package, in input order. -/
def toSBOM (npmPackages : List NpmPackage) (serial timestamp : String) : SBOM :=
  npmPackages.foldl pushPackage
    { bomFormat := "CycloneDX"
      specVersion := "1.6"
      serialNumber := "urn:uuid:" ++ serial
      version := 1
      timestamp := timestamp
      components := []
      dependencies := [] }

/-! ## The registry and the build pass (`DependencyListPlugin.apply`) -/

/-- The `moduleCoords` object: an ordered association list of
`name + ":" + version` keys to descriptors. -/
abbrev Registry := List (String × NpmPackage)

/-- `Object.keys`, in insertion order. -/
def keys (r : Registry) : List String := r.map Prod.fst

/-- `Object.values`, in insertion order. -/
def registryValues (r : Registry) : List NpmPackage := r.map Prod.snd

/-- JS property assignment `moduleCoords[k] = v` on a plain object with
non-index string keys: an existing key keeps its position and gets the new
value; a new key is appended. -/
def insertJs (r : Registry) (k : String) (v : NpmPackage) : Registry :=
  if k ∈ keys r then r.map (fun e => if e.1 = k then (k, v) else e)
  else r ++ [(k, v)]

/-- One iteration of the `fileDependencies.forEach` body: resolve the file,
and store the descriptor under its `name:version` key when the resolved
package has a truthy name.  `fs` gives, per file, the ancestor descriptors
seen by `find-package-json`. -/
def resolveStep (fs : String → List NpmPackage) (r : Registry) (file : String) : Registry :=
  match findPackage (fs file) with
  | some p => if p.name ≠ "" then insertJs r (p.name ++ ":" ++ p.version) p else r
  | none => r

/-- The collect phase of `DependencyListPlugin.apply`'s done hook: the
registry after the pass over all file dependencies. -/
def processFiles (fs : String → List NpmPackage) (files : List String) : Registry :=
  files.foldl (resolveStep fs) []

/-- `Object.keys(moduleCoords).sort()`: the keys sorted ascending (JS default
string comparison, embedded as the lexicographic order on strings). -/
def sortedCoords (r : Registry) : List String :=
  List.insertionSort (· ≤ ·) (keys r)

/-- `sortedCoords.join('\n') + '\n'`: the manifest file text. -/
def manifestText (r : Registry) : String :=
  String.intercalate "\n" (sortedCoords r) ++ "\n"

/-! ## Theorems: license normalization -/

/-- C5: for every license string `s`, `toSBOMLicenses` returns a one-element
sequence; if `s` begins with a character of `[A-Za-z0-9+.]` (i.e. a non-empty
run of such characters) the result is the single id `{license: {id: s}}`,
otherwise the single `{expression: s}`; in particular for `"MIT"` and
`"(MIT OR Apache-2.0)"`. -/
theorem toSBOMLicenses_spec (s : String) (c : Char) (rest : List Char)
    (h : s.data = c :: rest) :
    (∀ t, (toSBOMLicenses t).length = 1)
    ∧ (isSpdxIdentChar c = true → toSBOMLicenses s = [SBOMLicense.id s])
    ∧ (isSpdxIdentChar c = false → toSBOMLicenses s = [SBOMLicense.expr s])
    ∧ toSBOMLicenses "" = [SBOMLicense.expr ""]
    ∧ toSBOMLicenses "MIT" = [SBOMLicense.id "MIT"]
    ∧ toSBOMLicenses "(MIT OR Apache-2.0)" = [SBOMLicense.expr "(MIT OR Apache-2.0)"] := by
  refine ⟨?_, ?_, ?_, by decide, by decide, by decide⟩
  · intro t
    unfold toSBOMLicenses
    cases spdxIdentMatch t <;> simp
  · intro hc
    simp [toSBOMLicenses, spdxIdentMatch, h, List.takeWhile_cons, hc]
  · intro hc
    simp [toSBOMLicenses, spdxIdentMatch, h, List.takeWhile_cons, hc]

/-- Witness for C5 at the concrete input `"MIT"`. -/
theorem toSBOMLicenses_spec_witness :
    toSBOMLicenses "MIT" = [SBOMLicense.id "MIT"] :=
  (toSBOMLicenses_spec "MIT" 'M' ['I', 'T'] rfl).2.1 (by decide)

/-! ## Theorems: package resolution -/

/-- C7: `findPackage` returns the descriptor of the nearest ancestor whose
descriptor declares a non-empty name, skipping every earlier (nearer)
descriptor, all of which are nameless; when no ancestor descriptor has a
name the result is `none` (and no error is raised: the function is total). -/
theorem findPackage_spec (l : List NpmPackage) :
    (∀ p, findPackage l = some p →
      p.name ≠ "" ∧ ∃ pre post, l = pre ++ p :: post ∧ ∀ q ∈ pre, q.name = "")
    ∧ (findPackage l = none ↔ ∀ p ∈ l, p.name = "") := by
  induction l with
  | nil => exact ⟨fun p h => (by simp [findPackage] at h), by simp [findPackage]⟩
  | cons q rest ih =>
    by_cases hq : q.name = ""
    · refine ⟨?_, ?_⟩
      · intro p h
        rw [findPackage, if_neg (by simp [hq])] at h
        obtain ⟨hp, pre, post, hl, hpre⟩ := ih.1 p h
        refine ⟨hp, q :: pre, post, by simp [hl], ?_⟩
        intro x hx
        rcases List.mem_cons.mp hx with hx | hx
        · exact hx ▸ hq
        · exact hpre x hx
      · rw [findPackage, if_neg (by simp [hq])]
        simp [ih.2, hq]
    · refine ⟨?_, ?_⟩
      · intro p h
        rw [findPackage, if_pos hq] at h
        cases h
        exact ⟨hq, [], rest, rfl, by simp⟩
      · rw [findPackage, if_pos hq]
        simp
        intro h
        exact absurd h hq

/-- Witness for C7: a nameless nearest descriptor is skipped and the next
named one is returned; a list of nameless descriptors resolves to `none`. -/
theorem findPackage_spec_witness :
    findPackage [⟨"", "0.1", none, none, none⟩] = none :=
  (findPackage_spec [⟨"", "0.1", none, none, none⟩]).2.mpr (by decide)

/-! ## Theorems: author normalization -/

/-- C9: for every string input the author conversion is total and returns a
single entry; when the shorthand regex does not match, the whole string
becomes the name and no email is emitted. -/
theorem toSBOMAuthors_string_total (s : String) (h : execAuthorRegex s = none) :
    (∀ t, (toSBOMAuthors (NpmAuthor.str t)).length = 1)
    ∧ toSBOMAuthors (NpmAuthor.str s) = [⟨s, none⟩] := by
  constructor
  · intro t
    cases hm : execAuthorRegex t with
    | none => simp [toSBOMAuthors, hm]
    | some v =>
      obtain ⟨n, e, u⟩ := v
      simp [toSBOMAuthors, hm]
  · simp [toSBOMAuthors, h]

/-- Witness for C9: `"a\nb"` fails the regex (its `.` matches no line
terminator), so the whole string becomes the name. -/
theorem toSBOMAuthors_string_total_witness :
    toSBOMAuthors (NpmAuthor.str "a\nb") = [⟨"a\nb", none⟩] :=
  (toSBOMAuthors_string_total "a\nb" (by decide)).2

/-- C6 counterexample: for the structured author
`{name: "Jane Doe", email: ""}` the email field is present but the code's
truthiness test drops it, so no email key is emitted — contradicting "email
exactly when email is present". -/
theorem toSBOMAuthors_empty_email_counterexample :
    toSBOMAuthors (NpmAuthor.obj (some "Jane Doe") (some "") none)
      = [⟨"Jane Doe", none⟩]
    ∧ toSBOMAuthors (NpmAuthor.obj (some "Jane Doe") (some "") none)
      ≠ [⟨"Jane Doe", some ""⟩] :=
  ⟨by decide, by decide⟩

/-- C6 (amended): `toSBOMAuthors` always returns one entry; for structured
input with a non-empty name it emits the name plus the email exactly when the
email is present and non-empty (url dropped); for a string matched by the
shorthand regex it emits the captured name plus the email exactly when the
email group captures a non-empty string (url dropped); in particular for the
two spec examples. -/
theorem toSBOMAuthors_spec (nm : String) (em url : Option String) (hnm : nm ≠ "")
    (s n : String) (e u : Option String)
    (hs : execAuthorRegex s = some (n, e, u)) :
    (∀ a, (toSBOMAuthors a).length = 1)
    ∧ toSBOMAuthors (NpmAuthor.obj (some nm) em url)
        = [⟨nm, if truthy em then em else none⟩]
    ∧ toSBOMAuthors (NpmAuthor.str s) = [⟨n, if truthy e then e else none⟩]
    ∧ toSBOMAuthors
        (NpmAuthor.str "Jane Doe <jane@example.com> (https://example.com)")
        = [⟨"Jane Doe", some "jane@example.com"⟩]
    ∧ toSBOMAuthors (NpmAuthor.obj (some "Jane Doe") none none)
        = [⟨"Jane Doe", none⟩] := by
  refine ⟨?_, ?_, ?_, by decide, by decide⟩
  · intro a
    cases a with
    | str t =>
      cases hm : execAuthorRegex t with
      | none => simp [toSBOMAuthors, hm]
      | some v =>
        obtain ⟨n', e', u'⟩ := v
        simp [toSBOMAuthors, hm]
    | obj nm' em' url' =>
      by_cases hn : truthy nm' = true
      · simp [toSBOMAuthors, hn]
      · cases hm : execAuthorRegex "[object Object]" with
        | none => simp [toSBOMAuthors, hn, hm]
        | some v =>
          obtain ⟨n', e', u'⟩ := v
          simp [toSBOMAuthors, hn, hm]
  · have ht : truthy (some nm) = true := by simpa [truthy] using hnm
    simp [toSBOMAuthors, ht]
  · simp [toSBOMAuthors, hs]

/-- Witness for C6 at the structured example plus a concrete regex match. -/
theorem toSBOMAuthors_spec_witness :
    toSBOMAuthors (NpmAuthor.str "Jane Doe <jane@example.com> (https://example.com)")
      = [⟨"Jane Doe", some "jane@example.com"⟩] :=
  (toSBOMAuthors_spec "Jane Doe" none none (by decide)
    "Jane Doe <jane@example.com> (https://example.com)"
    "Jane Doe" (some "jane@example.com") (some "https://example.com")
    (by decide)).2.2.2.1

/-! ## Registry lemmas -/

/-- Re-assigning an existing key keeps the key list (set and order). -/
theorem keys_insertJs_mem (r : Registry) (k : String) (v : NpmPackage)
    (h : k ∈ keys r) : keys (insertJs r k v) = keys r := by
  unfold insertJs
  rw [if_pos h]
  unfold keys
  rw [List.map_map]
  apply List.map_congr_left
  intro e _
  by_cases he : e.1 = k
  · simp [Function.comp, he]
  · simp [Function.comp, he]

/-- Assigning an absent key appends it. -/
theorem keys_insertJs_not_mem (r : Registry) (k : String) (v : NpmPackage)
    (h : k ∉ keys r) : keys (insertJs r k v) = keys r ++ [k] := by
  unfold insertJs
  rw [if_neg h]
  simp [keys]

/-- JS assignment preserves key distinctness. -/
theorem nodup_keys_insertJs (r : Registry) (k : String) (v : NpmPackage)
    (h : (keys r).Nodup) : (keys (insertJs r k v)).Nodup := by
  by_cases hk : k ∈ keys r
  · rw [keys_insertJs_mem r k v hk]; exact h
  · rw [keys_insertJs_not_mem r k v hk]
    rw [List.nodup_append]
    refine ⟨h, List.nodup_singleton k, ?_⟩
    intro a ha hb
    rw [List.mem_singleton] at hb
    exact hk (hb ▸ ha)

/-- One resolution step preserves key distinctness. -/
theorem nodup_keys_resolveStep (fs : String → List NpmPackage) (r : Registry)
    (f : String) (h : (keys r).Nodup) : (keys (resolveStep fs r f)).Nodup := by
  cases hfp : findPackage (fs f) with
  | none => simpa [resolveStep, hfp] using h
  | some p =>
    by_cases hp : p.name = ""
    · simpa [resolveStep, hfp, hp] using h
    · simpa [resolveStep, hfp, hp] using
        nodup_keys_insertJs r (p.name ++ ":" ++ p.version) p h

/-- The pass preserves key distinctness from any start state. -/
theorem nodup_keys_foldl (fs : String → List NpmPackage) (files : List String)
    (r : Registry) (h : (keys r).Nodup) :
    (keys (files.foldl (resolveStep fs) r)).Nodup := by
  induction files generalizing r with
  | nil => exact h
  | cons f t ih =>
    rw [List.foldl_cons]
    exact ih _ (nodup_keys_resolveStep fs r f h)

/-- The registry built by the pass has distinct keys. -/
theorem nodup_keys_processFiles (fs : String → List NpmPackage)
    (files : List String) : (keys (processFiles fs files)).Nodup :=
  nodup_keys_foldl fs files [] List.nodup_nil

/-- C2 counterexample: re-inserting a descriptor with an already-present key
`"a:1"` overwrites the stored descriptor (here: a different `description`),
so the existing entry's stored value does not stay unchanged. -/
theorem insertJs_overwrite_counterexample :
    insertJs [("a:1", ⟨"a", "1", none, some "x", none⟩)] "a:1"
        ⟨"a", "1", none, some "y", none⟩
      = [("a:1", ⟨"a", "1", none, some "y", none⟩)]
    ∧ insertJs [("a:1", ⟨"a", "1", none, some "x", none⟩)] "a:1"
        ⟨"a", "1", none, some "y", none⟩
      ≠ [("a:1", ⟨"a", "1", none, some "x", none⟩)] :=
  ⟨by decide, by decide⟩

/-- C2 (amended): re-assigning an already-present key leaves the key set and
the key insertion order unchanged, while the stored descriptor value is
replaced by the later (same-keyed) descriptor; and the registry never holds
more than one entry per key. -/
theorem insertJs_existing_key (r : Registry) (k : String) (v : NpmPackage)
    (h : k ∈ keys r) :
    keys (insertJs r k v) = keys r
    ∧ (k, v) ∈ insertJs r k v
    ∧ ((keys r).Nodup → (keys (insertJs r k v)).Nodup)
    ∧ ∀ (fs : String → List NpmPackage) (files : List String),
        (keys (processFiles fs files)).Nodup := by
  refine ⟨keys_insertJs_mem r k v h, ?_, fun hn => nodup_keys_insertJs r k v hn,
    fun fs files => nodup_keys_processFiles fs files⟩
  obtain ⟨e, he, hek⟩ := List.mem_map.mp h
  rw [insertJs, if_pos h]
  exact List.mem_map.mpr ⟨e, he, by simp [hek]⟩

/-- Witness for C2 at a concrete one-entry registry. -/
theorem insertJs_existing_key_witness :
    keys (insertJs [("b:2", ⟨"b", "2", none, none, none⟩)] "b:2"
        ⟨"b", "2", none, some "d", none⟩)
      = keys [("b:2", ⟨"b", "2", none, none, none⟩)] :=
  (insertJs_existing_key _ "b:2" _ (by decide)).1

/-! ## Theorems: empty resolution -/

/-- The pass is the identity when no file resolves. -/
theorem foldl_resolveStep_none (fs : String → List NpmPackage)
    (files : List String) (r : Registry)
    (h : ∀ f ∈ files, findPackage (fs f) = none) :
    files.foldl (resolveStep fs) r = r := by
  induction files generalizing r with
  | nil => rfl
  | cons f t ih =>
    rw [List.foldl_cons]
    have hf : resolveStep fs r f = r := by
      simp [resolveStep, h f (List.mem_cons_self f t)]
    rw [hf]
    exact ih r (fun g hg => h g (List.mem_cons_of_mem f hg))

/-- C10: when no input file resolves to a named package the manifest text is
exactly one newline (not the empty string) and the SBOM has empty
`components` and `dependencies` arrays. -/
theorem empty_resolution_outputs (fs : String → List NpmPackage)
    (files : List String) (serial ts : String)
    (h : ∀ f ∈ files, findPackage (fs f) = none) :
    manifestText (processFiles fs files) = "\n"
    ∧ (toSBOM (registryValues (processFiles fs files)) serial ts).components = []
    ∧ (toSBOM (registryValues (processFiles fs files)) serial ts).dependencies = [] := by
  have hr : processFiles fs files = [] := foldl_resolveStep_none fs files [] h
  rw [hr]
  exact ⟨by decide, rfl, rfl⟩

/-- Witness for C10: one file with no ancestor descriptors at all. -/
theorem empty_resolution_outputs_witness :
    manifestText (processFiles (fun _ => ([] : List NpmPackage)) ["main.js"]) = "\n" :=
  (empty_resolution_outputs (fun _ => []) ["main.js"] "s" "t"
    (fun _ _ => rfl)).1

/-! ## Theorems: SBOM shape -/

/-- Accumulator form of the `forEach` of `#toSBOM`. -/
theorem foldl_pushPackage (pkgs : List NpmPackage) (s0 : SBOM) :
    (pkgs.foldl pushPackage s0).components = s0.components ++ pkgs.map mkComponent
    ∧ (pkgs.foldl pushPackage s0).dependencies
        = s0.dependencies ++ pkgs.map (fun p => (⟨purl p.name p.version⟩ : Dependency)) := by
  induction pkgs generalizing s0 with
  | nil => simp
  | cons p t ih =>
    rw [List.foldl_cons]
    obtain ⟨ihc, ihd⟩ := ih (pushPackage s0 p)
    constructor
    · rw [ihc]; simp [pushPackage]
    · rw [ihd]; simp [pushPackage]

/-- The components are exactly the translated packages, in input order. -/
theorem components_toSBOM (pkgs : List NpmPackage) (serial ts : String) :
    (toSBOM pkgs serial ts).components = pkgs.map mkComponent := by
  unfold toSBOM
  rw [(foldl_pushPackage pkgs _).1]
  rfl

/-- The dependencies are exactly the purl references, in input order. -/
theorem dependencies_toSBOM (pkgs : List NpmPackage) (serial ts : String) :
    (toSBOM pkgs serial ts).dependencies
      = pkgs.map (fun p => (⟨purl p.name p.version⟩ : Dependency)) := by
  unfold toSBOM
  rw [(foldl_pushPackage pkgs _).2]
  rfl

/-- C4: the SBOM built from a package sequence has as many dependencies as
components, the components appear in input order (same names and versions,
position by position), and at every index the dependency's `ref` equals the
component's `bom-ref`. -/
theorem toSBOM_alignment (pkgs : List NpmPackage) (serial ts : String) :
    (toSBOM pkgs serial ts).components.length
        = (toSBOM pkgs serial ts).dependencies.length
    ∧ (toSBOM pkgs serial ts).components.map Component.name
        = pkgs.map NpmPackage.name
    ∧ (toSBOM pkgs serial ts).components.map Component.version
        = pkgs.map NpmPackage.version
    ∧ ∀ i : Nat,
        ((toSBOM pkgs serial ts).dependencies[i]?).map Dependency.ref
          = ((toSBOM pkgs serial ts).components[i]?).map Component.bomRef := by
  rw [components_toSBOM, dependencies_toSBOM]
  refine ⟨by simp, ?_, ?_, ?_⟩
  · rw [List.map_map]; rfl
  · rw [List.map_map]; rfl
  · intro i
    rw [List.getElem?_map, List.getElem?_map, Option.map_map, Option.map_map]
    rfl

/-! ## Theorems: manifest text -/

/-- C8: the manifest is the registry's keys sorted ascending (the sorted key
list is ordered and is a permutation of the key list), joined with newlines
and followed by a single trailing newline. -/
theorem manifest_sorted (r : Registry) :
    (sortedCoords r).Sorted (· ≤ ·)
    ∧ (sortedCoords r).Perm (keys r)
    ∧ manifestText r = String.intercalate "\n" (sortedCoords r) ++ "\n" :=
  ⟨List.sorted_insertionSort _ _, List.perm_insertionSort _ _, rfl⟩

/-! ## Registry membership through the pass -/

/-- A located package always has a truthy name. -/
theorem findPackage_some_name (l : List NpmPackage) (p : NpmPackage)
    (h : findPackage l = some p) : p.name ≠ "" := by
  induction l with
  | nil => cases h
  | cons q rest ih =>
    by_cases hq : q.name = ""
    · rw [findPackage, if_neg (by simp [hq])] at h
      exact ih h
    · rw [findPackage, if_pos hq] at h
      cases h
      exact hq

/-- Key membership after a JS assignment. -/
theorem mem_keys_insertJs (r : Registry) (k : String) (v : NpmPackage)
    (a : String) : a ∈ keys (insertJs r k v) ↔ a ∈ keys r ∨ a = k := by
  by_cases hk : k ∈ keys r
  · rw [keys_insertJs_mem r k v hk]
    constructor
    · exact Or.inl
    · rintro (ha | rfl)
      · exact ha
      · exact hk
  · rw [keys_insertJs_not_mem r k v hk]
    simp

/-- Key membership after one resolution step. -/
theorem mem_keys_resolveStep (fs : String → List NpmPackage) (r : Registry)
    (f : String) (a : String) :
    a ∈ keys (resolveStep fs r f)
      ↔ a ∈ keys r ∨ ∃ p, findPackage (fs f) = some p
          ∧ p.name ++ ":" ++ p.version = a := by
  cases hfp : findPackage (fs f) with
  | none => simp [resolveStep, hfp]
  | some p =>
    have hp : p.name ≠ "" := findPackage_some_name _ _ hfp
    simp [resolveStep, hfp, hp, mem_keys_insertJs, eq_comm]

/-- Key membership after the whole pass. -/
theorem mem_keys_foldl (fs : String → List NpmPackage) (files : List String)
    (r : Registry) (a : String) :
    a ∈ keys (files.foldl (resolveStep fs) r)
      ↔ a ∈ keys r ∨ ∃ f ∈ files, ∃ p, findPackage (fs f) = some p
          ∧ p.name ++ ":" ++ p.version = a := by
  induction files generalizing r with
  | nil => simp
  | cons f t ih =>
    rw [List.foldl_cons, ih, mem_keys_resolveStep]
    simp only [List.exists_mem_cons_iff]
    exact or_assoc

/-- The registry holds key `a` iff some input file resolves to it. -/
theorem mem_keys_processFiles (fs : String → List NpmPackage)
    (files : List String) (a : String) :
    a ∈ keys (processFiles fs files)
      ↔ ∃ f ∈ files, ∃ p, findPackage (fs f) = some p
          ∧ p.name ++ ":" ++ p.version = a := by
  unfold processFiles
  rw [mem_keys_foldl]
  simp [keys]

/-- The sort does not change how often a key occurs. -/
theorem count_sortedCoords (r : Registry) (a : String) :
    (sortedCoords r).count a = (keys r).count a :=
  (List.perm_insertionSort _ _).count_eq a

/-- C3: every `(name, version)` pair some input file resolves to contributes
exactly one manifest line `name:version`, however many files share the
package, and the sorted key list is unchanged under reordering of the input
collection. -/
theorem manifest_unique_line (fs : String → List NpmPackage)
    (files : List String) (n v : String)
    (h : ∃ f ∈ files, ∃ p, findPackage (fs f) = some p
        ∧ p.name = n ∧ p.version = v) :
    (sortedCoords (processFiles fs files)).count (n ++ ":" ++ v) = 1
    ∧ ∀ files₂, files.Perm files₂ →
        sortedCoords (processFiles fs files)
          = sortedCoords (processFiles fs files₂) := by
  constructor
  · rw [count_sortedCoords]
    apply List.count_eq_one_of_mem (nodup_keys_processFiles fs files)
    rw [mem_keys_processFiles]
    obtain ⟨f, hf, p, hfp, hn, hv⟩ := h
    exact ⟨f, hf, p, hfp, by rw [hn, hv]⟩
  · intro files₂ hperm
    have h1 := nodup_keys_processFiles fs files
    have h2 := nodup_keys_processFiles fs files₂
    have hmem : ∀ a, a ∈ keys (processFiles fs files)
        ↔ a ∈ keys (processFiles fs files₂) := by
      intro a
      rw [mem_keys_processFiles, mem_keys_processFiles]
      constructor
      · rintro ⟨f, hf, hp⟩; exact ⟨f, hperm.mem_iff.mp hf, hp⟩
      · rintro ⟨f, hf, hp⟩; exact ⟨f, hperm.mem_iff.mpr hf, hp⟩
    have hkeys : List.Perm (keys (processFiles fs files)) (keys (processFiles fs files₂)) :=
      (h1.subperm (fun a ha => (hmem a).mp ha)).antisymm
        (h2.subperm (fun a ha => (hmem a).mpr ha))
    exact List.eq_of_perm_of_sorted
      (((List.perm_insertionSort _ _).trans hkeys).trans
        (List.perm_insertionSort _ _).symm)
      (List.sorted_insertionSort _ _) (List.sorted_insertionSort _ _)

/-- Witness for C3: one file resolving to `p:1` yields exactly one line. -/
theorem manifest_unique_line_witness :
    (sortedCoords (processFiles (fun _ => [⟨"p", "1", none, none, none⟩])
        ["a.js"])).count "p:1" = 1 :=
  (manifest_unique_line (fun _ => [⟨"p", "1", none, none, none⟩]) ["a.js"]
    "p" "1" ⟨"a.js", by simp, ⟨"p", "1", none, none, none⟩, by decide, rfl, rfl⟩).1

/-! ## Percent-encoding lemmas

`encodeURIComponent` output is a concatenation of blocks: a literal
unreserved character, or a `%XY` escape with uppercase hexadecimal digits.
`'%'` is itself reserved, so `'%'` occurs only at block starts, and the block
`"%2F"` arises exactly from the byte 47, i.e. from `'/'`.  Hence
`.replace('%2F', '/')` interacts with the encoded text only at the first
encoded slash. -/

/-- Every Unicode scalar value is below `0x110000`. -/
theorem char_toNat_lt (c : Char) : c.toNat < 1114112 := by
  have h : Nat.isValidChar c.val.toNat := c.valid
  have he : c.toNat = c.val.toNat := rfl
  rw [he]
  rcases h with h | ⟨h1, h2⟩ <;> omega

/-- A character with code point 47 is `'/'`. -/
theorem char_toNat_eq_47 (c : Char) (h : c.toNat = 47) : c = '/' := by
  rw [← Char.ofNat_toNat c, h]

set_option maxRecDepth 8192 in
/-- The hexadecimal digits of a byte are never `'%'`, and they spell `"2F"`
only for the byte 47. -/
theorem hexDigit_facts : ∀ b : Nat, b < 256 →
    hexDigitChar (b / 16) ≠ '%' ∧ hexDigitChar (b % 16) ≠ '%'
    ∧ (b ≠ 47 → ¬(hexDigitChar (b / 16) = '2' ∧ hexDigitChar (b % 16) = 'F')) := by
  decide

/-- The search for `"%2F"` steps over any character other than `'%'`. -/
theorem replaceFirstAux_cons_ne (c : Char) (hc : c ≠ '%') (t : List Char) :
    replaceFirstAux ['%', '2', 'F'] ['/'] (c :: t)
      = c :: replaceFirstAux ['%', '2', 'F'] ['/'] t := by
  rw [replaceFirstAux, if_neg]
  intro h
  have : '%' = c := by
    have hb := List.isPrefixOf_iff_prefix.mp h
    obtain ⟨u, hu⟩ := hb
    cases hu
    rfl
  exact hc this.symm

/-- The search for `"%2F"` steps over the escape block of any byte other
than 47. -/
theorem replaceFirstAux_pctByte (b : Nat) (hb : b < 256) (h47 : b ≠ 47)
    (t : List Char) :
    replaceFirstAux ['%', '2', 'F'] ['/'] (pctEncodeByte b ++ t)
      = pctEncodeByte b ++ replaceFirstAux ['%', '2', 'F'] ['/'] t := by
  obtain ⟨hd1, hd2, hne⟩ := hexDigit_facts b hb
  have hne' := hne h47
  show replaceFirstAux _ _
      ('%' :: hexDigitChar (b / 16) :: hexDigitChar (b % 16) :: t) = _
  rw [replaceFirstAux, if_neg]
  · rw [replaceFirstAux_cons_ne _ hd1, replaceFirstAux_cons_ne _ hd2]
    rfl
  · intro h
    simp only [List.isPrefixOf, Bool.and_eq_true, beq_iff_eq, List.isPrefixOf] at h
    exact hne' ⟨h.2.1.symm, h.2.2.1.symm⟩

/-- The search steps over the escape blocks of a byte list avoiding 47. -/
theorem replaceFirstAux_bytes (bs : List Nat)
    (h : ∀ b ∈ bs, b < 256 ∧ b ≠ 47) (t : List Char) :
    replaceFirstAux ['%', '2', 'F'] ['/'] (bs.flatMap pctEncodeByte ++ t)
      = bs.flatMap pctEncodeByte
        ++ replaceFirstAux ['%', '2', 'F'] ['/'] t := by
  induction bs with
  | nil => simp
  | cons b bs ih =>
    rw [List.flatMap_cons, List.append_assoc]
    obtain ⟨hb, h47⟩ := h b (List.mem_cons_self b bs)
    rw [replaceFirstAux_pctByte b hb h47,
      ih (fun x hx => h x (List.mem_cons_of_mem b hx)), List.append_assoc]

/-- UTF-8 bytes of a character other than `'/'` are valid and avoid 47. -/
theorem utf8Bytes_facts (c : Char) (hc : c ≠ '/') :
    ∀ b ∈ utf8Bytes c.toNat, b < 256 ∧ b ≠ 47 := by
  intro b hb
  have hlt := char_toNat_lt c
  have h47 : c.toNat ≠ 47 := fun h => hc (char_toNat_eq_47 c h)
  unfold utf8Bytes at hb
  split at hb
  · next h1 =>
    simp only [List.mem_singleton] at hb
    omega
  · split at hb
    · next h1 h2 =>
      simp only [List.mem_cons, List.mem_singleton, List.not_mem_nil, or_false] at hb
      rcases hb with rfl | rfl <;> omega
    · split at hb
      · next h1 h2 h3 =>
        simp only [List.mem_cons, List.mem_singleton, List.not_mem_nil, or_false] at hb
        rcases hb with rfl | rfl | rfl <;> omega
      · next h1 h2 h3 =>
        simp only [List.mem_cons, List.mem_singleton, List.not_mem_nil, or_false] at hb
        rcases hb with rfl | rfl | rfl | rfl <;> omega

/-- The search steps over the encoding of any character other than `'/'`. -/
theorem replaceFirstAux_encodeChar (c : Char) (hc : c ≠ '/') (t : List Char) :
    replaceFirstAux ['%', '2', 'F'] ['/'] (encodeChar c ++ t)
      = encodeChar c ++ replaceFirstAux ['%', '2', 'F'] ['/'] t := by
  unfold encodeChar
  split
  · next h =>
    have hpc : c ≠ '%' := by
      intro he
      rw [he] at h
      exact absurd h (by decide)
    simpa using replaceFirstAux_cons_ne c hpc t
  · exact replaceFirstAux_bytes _ (utf8Bytes_facts c hc) t

/-- The search steps over the encoding of any slash-free character list. -/
theorem replaceFirstAux_encodeList (a : List Char) (ha : '/' ∉ a) (t : List Char) :
    replaceFirstAux ['%', '2', 'F'] ['/'] (a.flatMap encodeChar ++ t)
      = a.flatMap encodeChar ++ replaceFirstAux ['%', '2', 'F'] ['/'] t := by
  induction a with
  | nil => simp
  | cons c cs ih =>
    rw [List.flatMap_cons, List.append_assoc]
    have hc : c ≠ '/' := fun h => ha (h ▸ List.mem_cons_self c cs)
    rw [replaceFirstAux_encodeChar c hc,
      ih (fun h => ha (List.mem_cons_of_mem c h)), List.append_assoc]

/-- The replacement fires exactly at an explicit leading `"%2F"`. -/
theorem replaceFirstAux_at_pat (x : List Char) :
    replaceFirstAux ['%', '2', 'F'] ['/'] (['%', '2', 'F'] ++ x)
      = '/' :: x := by
  show replaceFirstAux _ _ ('%' :: '2' :: 'F' :: x) = _
  rw [replaceFirstAux, if_pos]
  · simp
  · simp [List.isPrefixOf]

/-- A slash-free name's encoding is untouched by `.replace('%2F', '/')`. -/
theorem replaceFirstAux_no_slash (a : List Char) (ha : '/' ∉ a) :
    replaceFirstAux ['%', '2', 'F'] ['/'] (a.flatMap encodeChar)
      = a.flatMap encodeChar := by
  have h := replaceFirstAux_encodeList a ha []
  simpa [replaceFirstAux] using h

/-- `encodeChar` sends `'/'` to its escape block. -/
theorem encodeChar_slash : encodeChar '/' = ['%', '2', 'F'] := by decide

/-! ## Theorems: the package URL -/

/-- C1 counterexample: the purl of the scoped package `@scope/pkg` encodes
the `@` of the scope as `%40`, so it differs from the claimed
`"pkg:npm/@scope/pkg@2.0.0"`. -/
theorem purl_scoped_counterexample :
    purl "@scope/pkg" "2.0.0" = "pkg:npm/%40scope/pkg@2.0.0"
    ∧ purl "@scope/pkg" "2.0.0" ≠ "pkg:npm/@scope/pkg@2.0.0" :=
  ⟨by decide, by decide⟩

/-- C1 (amended): the purl is `"pkg:npm/"` plus the percent-encoded name
with the first encoded slash decoded back, plus `"@"` plus the
percent-encoded version.  For a scoped name `scope/pkg` (one slash) the
slash stays unescaped while both parts are percent-encoded, and a slash-free
name is simply percent-encoded; in particular
`purl("left-pad","1.3.0") = "pkg:npm/left-pad@1.3.0"` and
`purl("@scope/pkg","2.0.0") = "pkg:npm/%40scope/pkg@2.0.0"`. -/
theorem purl_spec (scope pkg v : String)
    (h1 : '/' ∉ scope.data) :
    purl (scope ++ "/" ++ pkg) v
      = "pkg:npm/" ++ encodeURIComponent scope ++ "/" ++ encodeURIComponent pkg
        ++ "@" ++ encodeURIComponent v
    ∧ (∀ n : String, '/' ∉ n.data →
        purl n v = "pkg:npm/" ++ encodeURIComponent n ++ "@" ++ encodeURIComponent v)
    ∧ purl "left-pad" "1.3.0" = "pkg:npm/left-pad@1.3.0"
    ∧ purl "@scope/pkg" "2.0.0" = "pkg:npm/%40scope/pkg@2.0.0" := by
  refine ⟨?_, ?_, by decide, by decide⟩
  · apply String.ext
    simp only [purl, replaceFirst, encodeURIComponent, String.data_append,
      List.flatMap_append]
    have hf : (['/'] : List Char).flatMap encodeChar = ['%', '2', 'F'] := by
      simp [encodeChar_slash]
    rw [hf]
    rw [List.append_assoc (scope.data.flatMap encodeChar)]
    rw [replaceFirstAux_encodeList scope.data h1]
    rw [replaceFirstAux_at_pat]
    simp
  · intro n hn
    apply String.ext
    simp only [purl, replaceFirst, encodeURIComponent, String.data_append]
    rw [replaceFirstAux_no_slash n.data hn]

/-- Witness for C1 at the scoped name `@scope` / `pkg`. -/
theorem purl_spec_witness :
    purl ("@scope" ++ "/" ++ "pkg") "2.0.0"
      = "pkg:npm/" ++ encodeURIComponent "@scope" ++ "/" ++ encodeURIComponent "pkg"
        ++ "@" ++ encodeURIComponent "2.0.0" :=
  (purl_spec "@scope" "pkg" "2.0.0" (by decide)).1

end GuacDeps
